import Mathlib

/-!
Verification of the priceverse trade-to-price pipeline.

Shallow embedding of the TypeScript source:
* `src/processes/aggregators/stream-aggregator.process.ts` (VWAP tick)
* `src/processes/aggregators/ohlcv-aggregator.process.ts` (candle roll-up)
* `src/database/repositories/price-history.repository.ts`
* the OHLCV repository (cursor pagination)
* the rate-limit service
* `src/modules/collector/services/cbr-rate.service.ts`

Numeric values (JS `number`) are modelled as rationals; epoch-millisecond
times as integers.  Redis sorted sets are modelled as lists of entries with
their scores; SQL result sets as lists of rows.
-/

namespace Priceverse

/-- Closed set of the six trading pair symbols (`src/shared/types.ts`). -/
inductive PairSymbol where
  | btcUsd
  | xmrUsd
  | ethUsd
  | btcRub
  | xmrRub
  | ethRub
deriving DecidableEq, Repr

/-- Base pairs fed by venues (`USD_PAIRS` in `src/shared/types.ts`). -/
def USD_PAIRS : List PairSymbol := [.btcUsd, .xmrUsd, .ethUsd]

/-- Aggregation tick interval, ms (`AGGREGATION_INTERVAL` constant). -/
def AGGREGATION_INTERVAL : ℤ := 10000

/-- Trailing window size, ms (`WINDOW_SIZE` constant). -/
def WINDOW_SIZE : ℤ := 30000

/-- Trade entry as buffered by the stream aggregator (`TradeEntry` shape in
`processBatch`): price, volume, event-time (sorted-set score) and venue. -/
structure TradeEntry where
  price : ℚ
  volume : ℚ
  timestamp : ℤ
  exchange : String
deriving DecidableEq, Repr

/-- Result shape of `calculateVwap` (`VwapResult` in `src/shared/types.ts`). -/
structure VwapResult where
  pair : PairSymbol
  price : ℚ
  volume : ℚ
  sources : List String
  timestamp : ℤ
deriving DecidableEq, Repr

/-- JS `Set.add` on a list kept in insertion order: append the venue only if it
is not already present (`sources.add(trade.exchange)` in `calculateVwap`). -/
def addSource (ss : List String) (e : String) : List String :=
  if e ∈ ss then ss else ss ++ [e]

/-- One iteration of the accumulation loop of `calculateVwap`:
`totalPriceVolume += price*volume; totalVolume += volume; sources.add(exchange)`. -/
def vwapStep (a : ℚ × ℚ × List String) (t : TradeEntry) : ℚ × ℚ × List String :=
  (a.1 + t.price * t.volume, a.2.1 + t.volume, addSource a.2.2 t.exchange)

/-- Membership test of `ZRANGEBYSCORE bufferKey windowStart now` (both bounds
inclusive, as in Redis). -/
def inWindow (windowStart now : ℤ) (t : TradeEntry) : Bool :=
  decide (windowStart ≤ t.timestamp) && decide (t.timestamp ≤ now)

/-- Predicate for `ZREMRANGEBYSCORE bufferKey 0 windowStart`: an entry is
removed when its score lies in `[0, windowStart]` (both bounds inclusive). -/
def isEvicted (windowStart : ℤ) (t : TradeEntry) : Bool :=
  decide (0 ≤ t.timestamp) && decide (t.timestamp ≤ windowStart)

/-- Embedding of `StreamAggregatorProcess.calculateVwap`.  Reads the buffered
trades with score in `[now − WINDOW_SIZE, now]`; returns `null` when none,
otherwise folds price·volume, volume and the venue set over them, removes the
entries with score in `[0, windowStart]`, and returns the VWAP result.  The
second component is the buffer after the call (the `zremrangebyscore`
cleanup happens only on the non-empty branch, exactly as in the source). -/
def calculateVwap (pair : PairSymbol) (buffer : List TradeEntry) (now : ℤ) :
    Option VwapResult × List TradeEntry :=
  let windowStart := now - WINDOW_SIZE
  let trades := buffer.filter (inWindow windowStart now)
  if trades.length = 0 then (none, buffer)
  else
    let acc := trades.foldl vwapStep (0, 0, [])
    let vwapPrice := acc.1 / acc.2.1
    let buffer2 := buffer.filter (fun t => !(isEvicted windowStart t))
    (some { pair := pair, price := vwapPrice, volume := acc.2.1,
            sources := acc.2.2, timestamp := now }, buffer2)

lemma vwapFold_pv (l : List TradeEntry) :
    ∀ a : ℚ × ℚ × List String,
      (l.foldl vwapStep a).1 = a.1 + (l.map (fun t => t.price * t.volume)).sum := by
  induction l with
  | nil => intro a; simp
  | cons t l ih =>
      intro a
      simp only [List.foldl_cons, List.map_cons, List.sum_cons, ih, vwapStep]
      ring

lemma vwapFold_vol (l : List TradeEntry) :
    ∀ a : ℚ × ℚ × List String,
      (l.foldl vwapStep a).2.1 = a.2.1 + (l.map (fun t => t.volume)).sum := by
  induction l with
  | nil => intro a; simp
  | cons t l ih =>
      intro a
      simp only [List.foldl_cons, List.map_cons, List.sum_cons, ih, vwapStep]
      ring

lemma addSource_toFinset (ss : List String) (e : String) :
    (addSource ss e).toFinset = insert e ss.toFinset := by
  ext x
  by_cases h : e ∈ ss
  · simp only [addSource, if_pos h, List.mem_toFinset, Finset.mem_insert]
    constructor
    · intro hx; exact Or.inr hx
    · rintro (rfl | hx)
      · exact h
      · exact hx
  · simp only [addSource, if_neg h, List.mem_toFinset, List.mem_append,
      List.mem_singleton, Finset.mem_insert]
    tauto

lemma addSource_nodup (ss : List String) (e : String) (h : ss.Nodup) :
    (addSource ss e).Nodup := by
  by_cases he : e ∈ ss
  · simpa [addSource, he] using h
  · rw [addSource, if_neg he]
    refine List.Nodup.append h (List.nodup_singleton e) ?_
    intro a ha hb
    rw [List.mem_singleton] at hb
    subst hb
    exact he ha

lemma vwapFold_sources_toFinset (l : List TradeEntry) :
    ∀ a : ℚ × ℚ × List String,
      ((l.foldl vwapStep a).2.2).toFinset =
        a.2.2.toFinset ∪ (l.map (fun t => t.exchange)).toFinset := by
  induction l with
  | nil => intro a; simp
  | cons t l ih =>
      intro a
      simp only [List.foldl_cons, List.map_cons, ih, vwapStep, addSource_toFinset,
        List.toFinset_cons]
      ext x
      simp only [Finset.mem_union, Finset.mem_insert]
      tauto

lemma vwapFold_sources_nodup (l : List TradeEntry) :
    ∀ a : ℚ × ℚ × List String, a.2.2.Nodup → ((l.foldl vwapStep a).2.2).Nodup := by
  induction l with
  | nil => intro a h; simpa using h
  | cons t l ih =>
      intro a h
      exact ih _ (addSource_nodup _ _ h)

/-- C1: at a tick with at least one buffered trade in the trailing 30s window,
`calculateVwap` emits a result whose price is Σ(priceᵢ·volumeᵢ)/Σ volumeᵢ over
exactly the window trades, whose `sources` is the distinct (duplicate-free)
set of venues of those trades, whose `volume` is Σ volumeᵢ, and whose
timestamp is the tick time. -/
theorem calculateVwap_spec (pair : PairSymbol) (buffer : List TradeEntry) (now : ℤ)
    (h : buffer.filter (inWindow (now - WINDOW_SIZE) now) ≠ []) :
    ∃ r : VwapResult,
      (calculateVwap pair buffer now).1 = some r ∧
      r.price =
        ((buffer.filter (inWindow (now - WINDOW_SIZE) now)).map
            (fun t => t.price * t.volume)).sum /
          ((buffer.filter (inWindow (now - WINDOW_SIZE) now)).map
            (fun t => t.volume)).sum ∧
      r.volume = ((buffer.filter (inWindow (now - WINDOW_SIZE) now)).map
            (fun t => t.volume)).sum ∧
      r.sources.toFinset = ((buffer.filter (inWindow (now - WINDOW_SIZE) now)).map
            (fun t => t.exchange)).toFinset ∧
      r.sources.Nodup ∧
      r.timestamp = now := by
  have hlen : (buffer.filter (inWindow (now - WINDOW_SIZE) now)).length ≠ 0 := by
    simpa [List.length_eq_zero] using h
  refine ⟨⟨pair,
      ((buffer.filter (inWindow (now - WINDOW_SIZE) now)).foldl vwapStep (0, 0, [])).1 /
        ((buffer.filter (inWindow (now - WINDOW_SIZE) now)).foldl vwapStep (0, 0, [])).2.1,
      ((buffer.filter (inWindow (now - WINDOW_SIZE) now)).foldl vwapStep (0, 0, [])).2.1,
      ((buffer.filter (inWindow (now - WINDOW_SIZE) now)).foldl vwapStep (0, 0, [])).2.2,
      now⟩, ?_, ?_, ?_, ?_, ?_, rfl⟩
  · simp only [calculateVwap]
    rw [if_neg hlen]
  · simp [vwapFold_pv, vwapFold_vol]
  · simp [vwapFold_vol]
  · simp [vwapFold_sources_toFinset]
  · exact vwapFold_sources_nodup _ _ (by simp)

/-- Concrete buffer for the C1 witness: two trades from the same venue. -/
def c1buf : List TradeEntry := [⟨100, 1, 99000, "binance"⟩, ⟨102, 1, 99500, "binance"⟩]

/-- Witness for C1, at the buffer `c1buf` and tick time 100000. -/
theorem calculateVwap_spec_witness :
    ∃ r : VwapResult,
      (calculateVwap .btcUsd c1buf 100000).1 = some r ∧
      r.price =
        ((c1buf.filter (inWindow (100000 - WINDOW_SIZE) 100000)).map
            (fun t => t.price * t.volume)).sum /
          ((c1buf.filter (inWindow (100000 - WINDOW_SIZE) 100000)).map
            (fun t => t.volume)).sum ∧
      r.volume = ((c1buf.filter (inWindow (100000 - WINDOW_SIZE) 100000)).map
            (fun t => t.volume)).sum ∧
      r.sources.toFinset = ((c1buf.filter (inWindow (100000 - WINDOW_SIZE) 100000)).map
            (fun t => t.exchange)).toFinset ∧
      r.sources.Nodup ∧
      r.timestamp = 100000 :=
  calculateVwap_spec .btcUsd c1buf 100000 (by decide)

/-- C2 (code bug): with a non-empty window whose total volume is zero, the
source does NOT skip the pair — `calculateVwap` still returns a result (whose
JS price is `0/0 = NaN`; here the rational `0/0 = 0`), so a canonical row is
persisted, cached and broadcast.  The spec requires no emission. -/
theorem calculateVwap_zero_volume_still_emits :
    ((calculateVwap .btcUsd [⟨100, 0, 1000, "binance"⟩] 1000).1).isSome = true ∧
    ∃ r : VwapResult,
      (calculateVwap .btcUsd [⟨100, 0, 1000, "binance"⟩] 1000).1 = some r ∧
      r.volume = 0 := by
  refine ⟨rfl, ⟨_, rfl, ?_⟩⟩
  show ((0 : ℚ) + 0) = 0
  norm_num

/-- C3 counterexample: a buffer whose only trade is older than the window is
returned untouched by the tick — `calculateVwap` returns on the empty-window
branch before the `zremrangebyscore` cleanup, so a trade with event-time
`0 < 100000 − 30000` survives the tick. -/
theorem calculateVwap_no_prune_on_empty_window :
    (calculateVwap .btcUsd [⟨100, 1, 0, "binance"⟩] 100000).1 = none ∧
    ∃ t ∈ (calculateVwap .btcUsd [⟨100, 1, 0, "binance"⟩] 100000).2,
      t.timestamp < 100000 - 30000 := by decide

/-- C3 amended: when the 30s window is non-empty at the tick (and buffered
event-times are non-negative epoch times), the post-tick buffer holds no trade
with event-time below `now − 30000`. -/
theorem calculateVwap_prunes_when_window_nonempty
    (pair : PairSymbol) (buffer : List TradeEntry) (now : ℤ)
    (hne : buffer.filter (inWindow (now - WINDOW_SIZE) now) ≠ [])
    (hpos : ∀ t ∈ buffer, 0 ≤ t.timestamp) :
    ∀ t ∈ (calculateVwap pair buffer now).2, ¬(t.timestamp < now - WINDOW_SIZE) := by
  intro t ht
  have hlen : (buffer.filter (inWindow (now - WINDOW_SIZE) now)).length ≠ 0 := by
    simpa [List.length_eq_zero] using hne
  simp only [calculateVwap] at ht
  rw [if_neg hlen] at ht
  have hmem := List.mem_of_mem_filter ht
  have hcond := List.of_mem_filter ht
  simp only [isEvicted, Bool.not_eq_true', Bool.and_eq_false_iff,
    decide_eq_false_iff_not, not_le] at hcond
  rcases hcond with hc | hc
  · exact absurd (hpos t hmem) (not_le.2 hc)
  · exact not_lt.2 (le_of_lt hc)

/-- Witness for the amended C3: a fresh trade plus a stale one; the fresh
trade survives the tick and is not older than the window start. -/
theorem calculateVwap_prunes_witness :
    ¬((⟨100, 1, 95000, "binance"⟩ : TradeEntry).timestamp < 100000 - WINDOW_SIZE) :=
  calculateVwap_prunes_when_window_nonempty .btcUsd
    [⟨100, 1, 95000, "binance"⟩, ⟨100, 1, 0, "kraken"⟩] 100000
    (by decide) (by decide) ⟨100, 1, 95000, "binance"⟩ (by decide)

/-- Row shape passed to `priceHistoryRepo.create` (`CreatePriceHistoryInput`).
The source serializes `price` and `volume` with `toFixed(8)`; the embedding
keeps the rational values, treating decimal serialization as out of scope. -/
structure PriceRowInput where
  pair : PairSymbol
  price : ℚ
  timestamp : ℤ
  method : String
  sources : List String
  volume : ℚ
deriving DecidableEq, Repr

/-- Embedding of `vwap.pair.replace('-usd', '-rub')` on the six pair names:
the `-usd` suffix becomes `-rub`; names without `-usd` are unchanged. -/
def replaceUsdRub : PairSymbol → PairSymbol
  | .btcUsd => .btcRub
  | .xmrUsd => .xmrRub
  | .ethUsd => .ethRub
  | p => p

/-- Embedding of `StreamAggregatorProcess.savePrices`: persist the USD row,
then ask the fiat-rate collaborator (`usdRubRate` is what `cbrRate.getRate()`
resolved to) and, if the rate is positive, persist a second row for the RUB
pair with `price = vwap · rate`, `sources = [...sources, 'cbr']` and the same
timestamp.  Returns the list of persisted rows in order. -/
def savePrices (v : VwapResult) (usdRubRate : ℚ) : List PriceRowInput :=
  let usdInput : PriceRowInput :=
    { pair := v.pair, price := v.price, timestamp := v.timestamp,
      method := "vwap", sources := v.sources, volume := v.volume }
  if 0 < usdRubRate then
    [usdInput,
     { pair := replaceUsdRub v.pair, price := v.price * usdRubRate,
       timestamp := v.timestamp, method := "vwap",
       sources := v.sources ++ ["cbr"], volume := v.volume }]
  else [usdInput]

/-- C4: whenever a canonical USD row is emitted and the fiat rate is positive,
a second row for the corresponding RUB pair is persisted with
`price = vwap × rate`, the USD row's sources with `"cbr"` appended, and the
same event-time as the USD row. -/
theorem savePrices_rub_derivation (v : VwapResult) (rate : ℚ) (h : 0 < rate) :
    ∃ usdRow rubRow, savePrices v rate = [usdRow, rubRow] ∧
      usdRow.pair = v.pair ∧
      usdRow.price = v.price ∧
      usdRow.sources = v.sources ∧
      rubRow.pair = replaceUsdRub v.pair ∧
      rubRow.price = v.price * rate ∧
      rubRow.sources = usdRow.sources ++ ["cbr"] ∧
      rubRow.timestamp = usdRow.timestamp ∧
      usdRow.timestamp = v.timestamp := by
  simp only [savePrices]
  rw [if_pos h]
  exact ⟨_, _, rfl, rfl, rfl, rfl, rfl, rfl, rfl, rfl, rfl⟩

/-- Witness for C4: USD VWAP 100 with fiat rate 191/2 (= 95.5) yields the RUB
row at 9550 with `"cbr"` among sources and a shared event-time. -/
theorem savePrices_rub_derivation_witness :
    ∃ usdRow rubRow,
      savePrices ⟨.btcUsd, 100, 1, ["binance"], 5000⟩ (191 / 2) = [usdRow, rubRow] ∧
      usdRow.pair = PairSymbol.btcUsd ∧
      usdRow.price = 100 ∧
      usdRow.sources = ["binance"] ∧
      rubRow.pair = replaceUsdRub PairSymbol.btcUsd ∧
      rubRow.price = 100 * (191 / 2) ∧
      rubRow.sources = usdRow.sources ++ ["cbr"] ∧
      rubRow.timestamp = usdRow.timestamp ∧
      usdRow.timestamp = 5000 :=
  savePrices_rub_derivation ⟨.btcUsd, 100, 1, ["binance"], 5000⟩ (191 / 2) (by norm_num)

/-- Canonical price row as read back from `price_history`
(`PriceHistoryEntity`): the fields the OHLCV aggregation consumes.  `volume`
is nullable; `parseFloat(p.volume || '0')` reads a missing volume as 0. -/
structure PriceHistRow where
  pair : PairSymbol
  price : ℚ
  volume : Option ℚ
  timestamp : ℤ
deriving DecidableEq, Repr

/-- Candle shape written by `upsertCandle` (`CreateOhlcvCandleInput`). -/
structure OhlcvCandle where
  pair : PairSymbol
  timestamp : ℤ
  openP : ℚ
  high : ℚ
  low : ℚ
  close : ℚ
  volume : ℚ
  vwap : ℚ
  tradeCount : ℕ
deriving DecidableEq, Repr

/-- One iteration of the OHLCV loop in `aggregateInterval`:
`if (price > high) high = price; if (price < low) low = price;
totalVolume += volume; priceVolumeSum += price * volume`.
Accumulator is `(high, low, totalVolume, priceVolumeSum)`. -/
def candleStep (a : ℚ × ℚ × ℚ × ℚ) (p : PriceHistRow) : ℚ × ℚ × ℚ × ℚ :=
  (if a.1 < p.price then p.price else a.1,
   if p.price < a.2.1 then p.price else a.2.1,
   a.2.2.1 + p.volume.getD 0,
   a.2.2.2 + p.price * p.volume.getD 0)

/-- Per-pair candle computation of `OhlcvAggregatorProcess.aggregateInterval`,
applied to the rows loaded for the period: `continue` (no candle) when no
rows; otherwise `open = first.price`, `close = last.price`, high/low/volume
via the loop, `vwap = pvSum/volSum` when the total volume is positive and the
mean of open and close otherwise; `trade_count = row count`;
`timestamp = periodStart`. -/
def computeCandle (pair : PairSymbol) (periodStart : ℤ)
    (prices : List PriceHistRow) : Option OhlcvCandle :=
  match prices with
  | [] => none
  | p0 :: _ =>
    let openP := p0.price
    let close := (prices.getLast?.getD p0).price
    let acc := prices.foldl candleStep (openP, openP, 0, 0)
    let vwap := if 0 < acc.2.2.1 then acc.2.2.2 / acc.2.2.1 else (openP + close) / 2
    some { pair := pair, timestamp := periodStart, openP := openP,
           high := acc.1, low := acc.2.1, close := close,
           volume := acc.2.2.1, vwap := vwap, tradeCount := prices.length }

lemma ite_lt_eq_max (a b : ℚ) : (if a < b then b else a) = max a b := by
  rcases lt_or_le a b with h | h
  · simp [h, max_eq_right h.le]
  · simp [not_lt.2 h, max_eq_left h]

lemma ite_lt_eq_min (a b : ℚ) : (if b < a then b else a) = min a b := by
  rcases lt_or_le b a with h | h
  · simp [h, min_eq_right h.le]
  · simp [not_lt.2 h, min_eq_left h]

lemma candleFold_high (l : List PriceHistRow) :
    ∀ a : ℚ × ℚ × ℚ × ℚ,
      (l.foldl candleStep a).1 = l.foldl (fun h p => max h p.price) a.1 := by
  induction l with
  | nil => intro a; simp
  | cons p l ih =>
      intro a
      simp only [List.foldl_cons, ih, candleStep, ite_lt_eq_max]

lemma candleFold_low (l : List PriceHistRow) :
    ∀ a : ℚ × ℚ × ℚ × ℚ,
      (l.foldl candleStep a).2.1 = l.foldl (fun h p => min h p.price) a.2.1 := by
  induction l with
  | nil => intro a; simp
  | cons p l ih =>
      intro a
      simp only [List.foldl_cons, ih, candleStep, ite_lt_eq_min]

lemma candleFold_vol (l : List PriceHistRow) :
    ∀ a : ℚ × ℚ × ℚ × ℚ,
      (l.foldl candleStep a).2.2.1 = a.2.2.1 + (l.map (fun p => p.volume.getD 0)).sum := by
  induction l with
  | nil => intro a; simp
  | cons p l ih =>
      intro a
      simp only [List.foldl_cons, List.map_cons, List.sum_cons, ih, candleStep]
      ring

lemma candleFold_pv (l : List PriceHistRow) :
    ∀ a : ℚ × ℚ × ℚ × ℚ,
      (l.foldl candleStep a).2.2.2 =
        a.2.2.2 + (l.map (fun p => p.price * p.volume.getD 0)).sum := by
  induction l with
  | nil => intro a; simp
  | cons p l ih =>
      intro a
      simp only [List.foldl_cons, List.map_cons, List.sum_cons, ih, candleStep]
      ring

lemma foldl_maxRow_init (l : List PriceHistRow) :
    ∀ a : ℚ, a ≤ l.foldl (fun h p => max h p.price) a := by
  induction l with
  | nil => intro a; simp
  | cons x l ih =>
      intro a
      exact le_trans (le_max_left a x.price) (ih (max a x.price))

lemma foldl_maxRow_of_mem (l : List PriceHistRow) :
    ∀ (a : ℚ), ∀ x ∈ l, x.price ≤ l.foldl (fun h p => max h p.price) a := by
  induction l with
  | nil => intro a x hx; simp at hx
  | cons y l ih =>
      intro a x hx
      rcases List.mem_cons.1 hx with rfl | hx
      · exact le_trans (le_max_right a x.price) (foldl_maxRow_init l _)
      · exact ih _ x hx

lemma foldl_maxRow_mem (l : List PriceHistRow) :
    ∀ a : ℚ, l.foldl (fun h p => max h p.price) a = a ∨
      l.foldl (fun h p => max h p.price) a ∈ l.map (fun p => p.price) := by
  induction l with
  | nil => intro a; simp
  | cons x l ih =>
      intro a
      rcases ih (max a x.price) with h | h
      · rcases max_choice a x.price with hm | hm
        · exact Or.inl (by rw [List.foldl_cons, h, hm])
        · refine Or.inr ?_
          rw [List.foldl_cons, h, hm, List.map_cons]
          exact List.mem_cons_self _ _
      · refine Or.inr ?_
        rw [List.foldl_cons, List.map_cons]
        exact List.mem_cons_of_mem _ h

lemma foldl_minRow_init (l : List PriceHistRow) :
    ∀ a : ℚ, l.foldl (fun h p => min h p.price) a ≤ a := by
  induction l with
  | nil => intro a; simp
  | cons x l ih =>
      intro a
      exact le_trans (ih (min a x.price)) (min_le_left a x.price)

lemma foldl_minRow_of_mem (l : List PriceHistRow) :
    ∀ (a : ℚ), ∀ x ∈ l, l.foldl (fun h p => min h p.price) a ≤ x.price := by
  induction l with
  | nil => intro a x hx; simp at hx
  | cons y l ih =>
      intro a x hx
      rcases List.mem_cons.1 hx with rfl | hx
      · exact le_trans (foldl_minRow_init l _) (min_le_right a x.price)
      · exact ih _ x hx

lemma foldl_minRow_mem (l : List PriceHistRow) :
    ∀ a : ℚ, l.foldl (fun h p => min h p.price) a = a ∨
      l.foldl (fun h p => min h p.price) a ∈ l.map (fun p => p.price) := by
  induction l with
  | nil => intro a; simp
  | cons x l ih =>
      intro a
      rcases ih (min a x.price) with h | h
      · rcases min_choice a x.price with hm | hm
        · exact Or.inl (by rw [List.foldl_cons, h, hm])
        · refine Or.inr ?_
          rw [List.foldl_cons, h, hm, List.map_cons]
          exact List.mem_cons_self _ _
      · refine Or.inr ?_
        rw [List.foldl_cons, List.map_cons]
        exact List.mem_cons_of_mem _ h

/-- C5: for a non-empty row list the candle has `open` = first row's price,
`close` = last row's price, `high`/`low` the maximum/minimum price (bounded
by and attained on the rows), `volume` = Σ volume, `trade_count` = row count,
and `vwap` = Σ(price·volume)/Σ volume when Σ volume > 0, else the mean of
open and close; for an empty row list no candle is produced. -/
theorem computeCandle_spec (pair : PairSymbol) (ps : ℤ) (prices : List PriceHistRow)
    (h : prices ≠ []) :
    computeCandle pair ps [] = none ∧
    ∃ c : OhlcvCandle, computeCandle pair ps prices = some c ∧
      (∃ f, prices.head? = some f ∧ c.openP = f.price) ∧
      (∃ lr, prices.getLast? = some lr ∧ c.close = lr.price) ∧
      (∀ p ∈ prices, p.price ≤ c.high ∧ c.low ≤ p.price) ∧
      c.high ∈ prices.map (fun p => p.price) ∧
      c.low ∈ prices.map (fun p => p.price) ∧
      c.volume = (prices.map (fun p => p.volume.getD 0)).sum ∧
      c.tradeCount = prices.length ∧
      c.vwap = (if 0 < (prices.map (fun p => p.volume.getD 0)).sum then
          (prices.map (fun p => p.price * p.volume.getD 0)).sum /
            (prices.map (fun p => p.volume.getD 0)).sum
        else (c.openP + c.close) / 2) ∧
      c.timestamp = ps := by
  refine ⟨rfl, ?_⟩
  obtain ⟨p0, rest, rfl⟩ := List.exists_cons_of_ne_nil h
  obtain ⟨lr, hlr⟩ : ∃ lr, (p0 :: rest).getLast? = some lr := by
    cases hc : (p0 :: rest).getLast? with
    | none => simp [List.getLast?_eq_none_iff] at hc
    | some x => exact ⟨x, rfl⟩
  refine ⟨_, rfl, ⟨p0, rfl, rfl⟩, ⟨lr, hlr, ?_⟩, ?_, ?_, ?_, ?_, rfl, ?_, rfl⟩
  · show ((p0 :: rest).getLast?.getD p0).price = lr.price
    rw [hlr, Option.getD_some]
  · intro p hp
    constructor
    · show p.price ≤ ((p0 :: rest).foldl candleStep (p0.price, p0.price, 0, 0)).1
      rw [candleFold_high]
      exact foldl_maxRow_of_mem _ _ p hp
    · show ((p0 :: rest).foldl candleStep (p0.price, p0.price, 0, 0)).2.1 ≤ p.price
      rw [candleFold_low]
      exact foldl_minRow_of_mem _ _ p hp
  · show ((p0 :: rest).foldl candleStep (p0.price, p0.price, 0, 0)).1 ∈ _
    rw [candleFold_high]
    rcases foldl_maxRow_mem (p0 :: rest) p0.price with hm | hm
    · rw [hm]
      exact List.mem_map_of_mem _ (List.mem_cons_self p0 rest)
    · exact hm
  · show ((p0 :: rest).foldl candleStep (p0.price, p0.price, 0, 0)).2.1 ∈ _
    rw [candleFold_low]
    rcases foldl_minRow_mem (p0 :: rest) p0.price with hm | hm
    · rw [hm]
      exact List.mem_map_of_mem _ (List.mem_cons_self p0 rest)
    · exact hm
  · show ((p0 :: rest).foldl candleStep (p0.price, p0.price, 0, 0)).2.2.1 = _
    rw [candleFold_vol]
    simp
  · show (if 0 < ((p0 :: rest).foldl candleStep (p0.price, p0.price, 0, 0)).2.2.1 then
        ((p0 :: rest).foldl candleStep (p0.price, p0.price, 0, 0)).2.2.2 /
          ((p0 :: rest).foldl candleStep (p0.price, p0.price, 0, 0)).2.2.1
      else (p0.price + ((p0 :: rest).getLast?.getD p0).price) / 2) = _
    rw [candleFold_vol, candleFold_pv, zero_add, zero_add]

/-- Concrete rows for the C5 witness (spec scenario 5). -/
def c5rows : List PriceHistRow :=
  [⟨.btcUsd, 100, some 1, 0⟩, ⟨.btcUsd, 110, some 2, 60000⟩, ⟨.btcUsd, 105, some 1, 120000⟩]

/-- Witness for C5 at the three-row period of spec scenario 5. -/
theorem computeCandle_spec_witness :
    computeCandle .btcUsd 0 [] = none ∧
    ∃ c : OhlcvCandle, computeCandle .btcUsd 0 c5rows = some c ∧
      (∃ f, c5rows.head? = some f ∧ c.openP = f.price) ∧
      (∃ lr, c5rows.getLast? = some lr ∧ c.close = lr.price) ∧
      (∀ p ∈ c5rows, p.price ≤ c.high ∧ c.low ≤ p.price) ∧
      c.high ∈ c5rows.map (fun p => p.price) ∧
      c.low ∈ c5rows.map (fun p => p.price) ∧
      c.volume = (c5rows.map (fun p => p.volume.getD 0)).sum ∧
      c.tradeCount = c5rows.length ∧
      c.vwap = (if 0 < (c5rows.map (fun p => p.volume.getD 0)).sum then
          (c5rows.map (fun p => p.price * p.volume.getD 0)).sum /
            (c5rows.map (fun p => p.volume.getD 0)).sum
        else (c.openP + c.close) / 2) ∧
      c.timestamp = 0 :=
  computeCandle_spec .btcUsd 0 c5rows (by decide)

/-- Sort direction of a query (`orderBy: 'asc' | 'desc'`). -/
inductive SortOrder where
  | asc
  | desc
deriving DecidableEq, Repr

/-- Insertion step of the deterministic model of SQL `ORDER BY`. -/
def insertLe {α : Type} (le : α → α → Bool) (x : α) : List α → List α
  | [] => [x]
  | y :: ys => if le x y then x :: y :: ys else y :: insertLe le x ys

/-- Deterministic model of SQL `ORDER BY`: insertion sort by the given
comparison.  (SQL leaves the order of ties unspecified; any sorted
permutation is a faithful model.) -/
def sortLe {α : Type} (le : α → α → Bool) : List α → List α
  | [] => []
  | x :: xs => insertLe le x (sortLe le xs)

lemma insertLe_perm {α : Type} (le : α → α → Bool) (x : α) (l : List α) :
    (insertLe le x l).Perm (x :: l) := by
  induction l with
  | nil => exact List.Perm.refl _
  | cons y ys ih =>
      by_cases h : le x y
      · rw [insertLe, if_pos h]
      · rw [insertLe, if_neg h]
        exact (ih.cons y).trans (List.Perm.swap x y ys)

lemma sortLe_perm {α : Type} (le : α → α → Bool) (l : List α) :
    (sortLe le l).Perm l := by
  induction l with
  | nil => exact List.Perm.refl _
  | cons x xs ih =>
      exact (insertLe_perm le x (sortLe le xs)).trans (ih.cons x)

lemma insertLe_pairwise {α : Type} (le : α → α → Bool)
    (htrans : ∀ a b c, le a b = true → le b c = true → le a c = true)
    (htot : ∀ a b, le a b = true ∨ le b a = true)
    (x : α) (l : List α) (h : l.Pairwise (fun a b => le a b = true)) :
    (insertLe le x l).Pairwise (fun a b => le a b = true) := by
  induction l with
  | nil => simp [insertLe]
  | cons y ys ih =>
      rw [List.pairwise_cons] at h
      obtain ⟨hy, hys⟩ := h
      by_cases hxy : le x y
      · rw [insertLe, if_pos hxy]
        refine List.Pairwise.cons ?_ (List.Pairwise.cons hy hys)
        intro z hz
        rcases List.mem_cons.1 hz with rfl | hz
        · exact hxy
        · exact htrans x y z hxy (hy z hz)
      · rw [insertLe, if_neg hxy]
        refine List.Pairwise.cons ?_ (ih hys)
        intro z hz
        have hz2 := (insertLe_perm le x ys).mem_iff.1 hz
        rcases List.mem_cons.1 hz2 with rfl | hz2
        · rcases htot z y with hc | hc
          · exact absurd hc hxy
          · exact hc
        · exact hy z hz2

lemma sortLe_pairwise {α : Type} (le : α → α → Bool)
    (htrans : ∀ a b c, le a b = true → le b c = true → le a c = true)
    (htot : ∀ a b, le a b = true ∨ le b a = true)
    (l : List α) : (sortLe le l).Pairwise (fun a b => le a b = true) := by
  induction l with
  | nil => simp [sortLe]
  | cons x xs ih => exact insertLe_pairwise le htrans htot x (sortLe le xs) ih

/-- Default page size of `findByPairInRange` (`DEFAULT_LIMIT`). -/
def DEFAULT_LIMIT : ℕ := 1000

/-- Hard pagination cap of `findByPairInRange` (`MAX_LIMIT`). -/
def MAX_LIMIT : ℕ := 10000

/-- Query options of `findByPairInRange` (`PriceHistoryQueryOptions`). -/
structure PriceHistoryQueryOptions where
  pair : PairSymbol
  fromT : Option ℤ
  toT : Option ℤ
  limit : Option ℕ
  offset : Option ℕ
  orderBy : Option SortOrder

/-- Comparison used for `ORDER BY timestamp asc|desc` on price rows. -/
def orderLe (o : SortOrder) (a b : PriceHistRow) : Bool :=
  match o with
  | .asc => decide (a.timestamp ≤ b.timestamp)
  | .desc => decide (b.timestamp ≤ a.timestamp)

/-- WHERE clause of `findByPairInRange`: `pair = options.pair`, plus
`timestamp >= from` when `from` is given and `timestamp <= to` when `to` is
given (note: BOTH bounds inclusive in the source). -/
def matchesQuery (o : PriceHistoryQueryOptions) (r : PriceHistRow) : Bool :=
  decide (r.pair = o.pair) &&
  (match o.fromT with
   | none => true
   | some f => decide (f ≤ r.timestamp)) &&
  (match o.toT with
   | none => true
   | some t => decide (r.timestamp ≤ t))

/-- Embedding of `PriceHistoryRepository.findByPairInRange`: enforce
`limit = min(options.limit ?? DEFAULT_LIMIT, MAX_LIMIT)`, filter, order by
timestamp (default descending), and apply `LIMIT limit OFFSET offset`. -/
def findByPairInRange (table : List PriceHistRow) (o : PriceHistoryQueryOptions) :
    List PriceHistRow :=
  let limit := min (o.limit.getD DEFAULT_LIMIT) MAX_LIMIT
  let rows := table.filter (matchesQuery o)
  let sorted := sortLe (orderLe (o.orderBy.getD .desc)) rows
  (sorted.drop (o.offset.getD 0)).take limit

/-- Call made by `OhlcvAggregatorProcess.aggregateInterval` to load the
period's canonical prices: `{pair, from: periodStart, to: periodEnd,
orderBy: 'asc'}` with no explicit limit or offset. -/
def loadPricesForCandle (table : List PriceHistRow) (pair : PairSymbol)
    (periodStart periodEnd : ℤ) : List PriceHistRow :=
  findByPairInRange table
    { pair := pair, fromT := some periodStart, toT := some periodEnd,
      limit := none, offset := none, orderBy := some .asc }

/-- C6 counterexample: a canonical price with event-time exactly `periodEnd`
IS loaded for the candle — the repository filters with `timestamp <= to`, a
closed upper bound, so the input set is not `[periodStart, periodEnd)`. -/
theorem loadPricesForCandle_includes_period_end :
    (loadPricesForCandle [⟨.btcUsd, 100, some 1, 300000⟩] .btcUsd 0 300000).length = 1 ∧
    ∃ r ∈ loadPricesForCandle [⟨.btcUsd, 100, some 1, 300000⟩] .btcUsd 0 300000,
      ¬(r.timestamp < 300000) := by decide

/-- C6 amended: when at most the enforced page size (1000 rows) matches, the
rows loaded for a candle run are exactly the canonical prices with event-time
in the CLOSED interval `[periodStart, periodEnd]`, ordered by event-time
ascending — and never more than 10000 (indeed 1000) rows are loaded. -/
theorem loadPricesForCandle_spec (table : List PriceHistRow) (pair : PairSymbol)
    (ps pe : ℤ)
    (hcount : (table.filter (fun r =>
        decide (r.pair = pair) && decide (ps ≤ r.timestamp) &&
          decide (r.timestamp ≤ pe))).length ≤ 1000) :
    (loadPricesForCandle table pair ps pe).Perm
      (table.filter (fun r =>
        decide (r.pair = pair) && decide (ps ≤ r.timestamp) &&
          decide (r.timestamp ≤ pe))) ∧
    (loadPricesForCandle table pair ps pe).Pairwise
      (fun a b => a.timestamp ≤ b.timestamp) ∧
    (loadPricesForCandle table pair ps pe).length ≤ 10000 := by
  have hpred : ∀ r : PriceHistRow,
      matchesQuery ⟨pair, some ps, some pe, none, none, some .asc⟩ r =
        (decide (r.pair = pair) && decide (ps ≤ r.timestamp) &&
          decide (r.timestamp ≤ pe)) := by
    intro r
    rfl
  have hfilter : table.filter (matchesQuery ⟨pair, some ps, some pe, none, none, some .asc⟩) =
      table.filter (fun r =>
        decide (r.pair = pair) && decide (ps ≤ r.timestamp) &&
          decide (r.timestamp ≤ pe)) := by
    exact List.filter_congr (fun r _ => hpred r)
  have htrans : ∀ a b c : PriceHistRow, orderLe .asc a b = true →
      orderLe .asc b c = true → orderLe .asc a c = true := by
    intro a b c hab hbc
    simp only [orderLe, decide_eq_true_eq] at *
    exact le_trans hab hbc
  have htot : ∀ a b : PriceHistRow,
      orderLe .asc a b = true ∨ orderLe .asc b a = true := by
    intro a b
    simp only [orderLe, decide_eq_true_eq]
    exact le_total a.timestamp b.timestamp
  have hsortlen : (sortLe (orderLe .asc) (table.filter (fun r =>
      decide (r.pair = pair) && decide (ps ≤ r.timestamp) &&
        decide (r.timestamp ≤ pe)))).length ≤ 1000 := by
    rw [(sortLe_perm _ _).length_eq]
    exact hcount
  have hres : loadPricesForCandle table pair ps pe =
      sortLe (orderLe .asc) (table.filter (fun r =>
        decide (r.pair = pair) && decide (ps ≤ r.timestamp) &&
          decide (r.timestamp ≤ pe))) := by
    simp only [loadPricesForCandle, findByPairInRange, hfilter, Option.getD_none,
      Option.getD_some, List.drop_zero]
    exact List.take_of_length_le
      (le_trans hsortlen (by norm_num [DEFAULT_LIMIT, MAX_LIMIT]))
  refine ⟨?_, ?_, ?_⟩
  · rw [hres]
    exact sortLe_perm _ _
  · rw [hres]
    refine List.Pairwise.imp ?_ (sortLe_pairwise _ htrans htot _)
    intro a b hab
    simpa [orderLe] using hab
  · rw [hres]
    exact le_trans hsortlen (by norm_num)

/-- Witness for the amended C6: two matching rows (one exactly at the period
end) and one rejected row from another pair. -/
theorem loadPricesForCandle_spec_witness :
    (loadPricesForCandle
        [⟨.btcUsd, 100, some 1, 10⟩, ⟨.ethUsd, 7, some 1, 20⟩,
         ⟨.btcUsd, 105, some 2, 300000⟩] .btcUsd 0 300000).Perm
      ([⟨.btcUsd, 100, some 1, 10⟩, ⟨.ethUsd, 7, some 1, 20⟩,
         ⟨.btcUsd, 105, some 2, 300000⟩].filter (fun r =>
        decide (r.pair = PairSymbol.btcUsd) && decide ((0 : ℤ) ≤ r.timestamp) &&
          decide (r.timestamp ≤ (300000 : ℤ)))) ∧
    (loadPricesForCandle
        [⟨.btcUsd, 100, some 1, 10⟩, ⟨.ethUsd, 7, some 1, 20⟩,
         ⟨.btcUsd, 105, some 2, 300000⟩] .btcUsd 0 300000).Pairwise
      (fun a b => a.timestamp ≤ b.timestamp) ∧
    (loadPricesForCandle
        [⟨.btcUsd, 100, some 1, 10⟩, ⟨.ethUsd, 7, some 1, 20⟩,
         ⟨.btcUsd, 105, some 2, 300000⟩] .btcUsd 0 300000).length ≤ 10000 :=
  loadPricesForCandle_spec
    [⟨.btcUsd, 100, some 1, 10⟩, ⟨.ethUsd, 7, some 1, 20⟩,
     ⟨.btcUsd, 105, some 2, 300000⟩] .btcUsd 0 300000 (by decide)

/-- Candle row as stored in a `price_history_{5min,1hour,1day}` table: the
fields `getCandlesWithCursor` reads (`pair`, period-start `timestamp`) plus
the synthetic row id standing for the remaining OHLCV payload. -/
structure CandleRow where
  pair : PairSymbol
  timestamp : ℤ
  id : ℕ
deriving DecidableEq, Repr

/-- Opaque pagination cursor.  The source encodes
`Buffer.from(timestamp.toISOString()).toString('base64')`; both steps are
injective, so the cursor is modelled by the period-start it carries. -/
structure CursorStr where
  ts : ℤ
deriving DecidableEq, Repr

/-- Cursor serialization (base64 of the ISO-8601 period-start). -/
def encodeCursor (t : ℤ) : CursorStr := ⟨t⟩

/-- Query options of `getCandlesWithCursor` (`OhlcvQueryOptions`). -/
structure OhlcvQueryOptions where
  pair : PairSymbol
  fromT : Option ℤ
  toT : Option ℤ
  limit : Option ℕ
  cursor : Option CursorStr
  orderBy : Option SortOrder

/-- Comparison used for `ORDER BY timestamp asc|desc` on candle rows. -/
def candleLe (o : SortOrder) (a b : CandleRow) : Bool :=
  match o with
  | .asc => decide (a.timestamp ≤ b.timestamp)
  | .desc => decide (b.timestamp ≤ a.timestamp)

/-- WHERE clause of `getCandlesWithCursor`: `pair = options.pair`, strict
`timestamp < cursor` when a cursor was supplied, then `timestamp >= from`
and `timestamp <= to` when given. -/
def candleMatches (o : OhlcvQueryOptions) (r : CandleRow) : Bool :=
  decide (r.pair = o.pair) &&
  (match o.cursor with
   | none => true
   | some c => decide (r.timestamp < c.ts)) &&
  (match o.fromT with
   | none => true
   | some f => decide (f ≤ r.timestamp)) &&
  (match o.toT with
   | none => true
   | some t => decide (r.timestamp ≤ t))

/-- Page shape returned by `getCandlesWithCursor`
(`CursorPaginatedCandles`). -/
structure CursorPaginatedCandles where
  candles : List CandleRow
  nextCursor : Option CursorStr
  previousCursor : Option CursorStr
  hasMore : Bool
deriving DecidableEq, Repr

/-- Embedding of `OhlcvRepository.getCandlesWithCursor`: filter, order by
period-start (default descending), fetch `limit + 1` rows, drop the extra
when more than `limit` arrived, and derive `nextCursor` from the LAST KEPT
row and `previousCursor` from the first kept row when a cursor was given. -/
def getCandlesWithCursor (table : List CandleRow) (o : OhlcvQueryOptions) :
    CursorPaginatedCandles :=
  let limit := o.limit.getD 100
  let rows := table.filter (candleMatches o)
  let candles := (sortLe (candleLe (o.orderBy.getD .desc)) rows).take (limit + 1)
  let hasMore := decide (limit < candles.length)
  let resultCandles := if hasMore then candles.take limit else candles
  let nextCursor : Option CursorStr :=
    match hasMore, resultCandles.getLast? with
    | true, some lc => some (encodeCursor lc.timestamp)
    | _, _ => none
  let previousCursor : Option CursorStr :=
    match o.cursor, resultCandles.head? with
    | some _, some fc => some (encodeCursor fc.timestamp)
    | _, _ => none
  { candles := resultCandles, nextCursor := nextCursor,
    previousCursor := previousCursor, hasMore := hasMore }

/-- Concrete candle table for the C7 theorems. -/
def c7tbl : List CandleRow := [⟨.btcUsd, 1000, 1⟩, ⟨.btcUsd, 2000, 2⟩, ⟨.btcUsd, 3000, 3⟩]

/-- Cursor-less options with page size 2 for the C7 counterexample. -/
def c7opts : OhlcvQueryOptions := ⟨.btcUsd, none, none, some 2, none, none⟩

/-- C7 counterexample: with three candles and `limit = 2`, the extra fetched
row (period-start 1000) is dropped, but `nextCursor` encodes the LAST KEPT
row's period-start 2000, not the dropped row's — the claim's "dropped extra
row's period-start is emitted as nextCursor" is false. -/
theorem getCandlesWithCursor_nextCursor_not_dropped :
    (getCandlesWithCursor c7tbl c7opts).hasMore = true ∧
    (getCandlesWithCursor c7tbl c7opts).candles.length = 2 ∧
    ((sortLe (candleLe .desc) (c7tbl.filter (candleMatches c7opts))).take 3).getLast? =
      some ⟨.btcUsd, 1000, 1⟩ ∧
    (getCandlesWithCursor c7tbl c7opts).nextCursor = some (encodeCursor 2000) ∧
    encodeCursor 2000 ≠ encodeCursor 1000 := by decide

lemma gcwc_hasMore_iff (table : List CandleRow) (o : OhlcvQueryOptions) :
    (getCandlesWithCursor table o).hasMore = true ↔
      o.limit.getD 100 + 1 ≤ (table.filter (candleMatches o)).length := by
  simp only [getCandlesWithCursor, decide_eq_true_eq, List.length_take]
  rw [(sortLe_perm (candleLe (o.orderBy.getD .desc)) (table.filter (candleMatches o))).length_eq]
  omega

lemma gcwc_candles_of_hasMore (table : List CandleRow) (o : OhlcvQueryOptions)
    (h : (getCandlesWithCursor table o).hasMore = true) :
    (getCandlesWithCursor table o).candles =
      (sortLe (candleLe (o.orderBy.getD .desc)) (table.filter (candleMatches o))).take
        (o.limit.getD 100) := by
  simp only [getCandlesWithCursor] at h ⊢
  rw [if_pos h, List.take_take]
  congr 1
  omega

lemma gcwc_nextCursor_of_hasMore (table : List CandleRow) (o : OhlcvQueryOptions)
    (h : (getCandlesWithCursor table o).hasMore = true) :
    (getCandlesWithCursor table o).nextCursor =
      ((getCandlesWithCursor table o).candles.getLast?).map
        (fun lc => encodeCursor lc.timestamp) := by
  simp only [getCandlesWithCursor] at h ⊢
  rw [h]
  rcases hq : ((sortLe (candleLe (o.orderBy.getD .desc)) (table.filter (candleMatches o))).take
      (o.limit.getD 100 + 1) |>.take (o.limit.getD 100)).getLast? with _ | lc
  · simp [hq]
  · simp [hq]

lemma gcwc_previousCursor (table : List CandleRow) (o : OhlcvQueryOptions)
    (h : o.cursor.isSome = true) :
    (getCandlesWithCursor table o).previousCursor =
      ((getCandlesWithCursor table o).candles.head?).map
        (fun fc => encodeCursor fc.timestamp) := by
  obtain ⟨c, hc⟩ := Option.isSome_iff_exists.1 h
  simp only [getCandlesWithCursor, hc]
  cases (if decide (o.limit.getD 100 <
      ((sortLe (candleLe (o.orderBy.getD .desc)) (table.filter (candleMatches o))).take
        (o.limit.getD 100 + 1)).length) = true then
      ((sortLe (candleLe (o.orderBy.getD .desc)) (table.filter (candleMatches o))).take
        (o.limit.getD 100 + 1)).take (o.limit.getD 100)
    else
      (sortLe (candleLe (o.orderBy.getD .desc)) (table.filter (candleMatches o))).take
        (o.limit.getD 100 + 1)).head? <;> simp

lemma gcwc_desc_default (table : List CandleRow) (o : OhlcvQueryOptions)
    (h : o.orderBy = none) :
    (getCandlesWithCursor table o).candles.Pairwise
      (fun a b => b.timestamp ≤ a.timestamp) := by
  have htrans : ∀ a b c : CandleRow, candleLe .desc a b = true →
      candleLe .desc b c = true → candleLe .desc a c = true := by
    intro a b c hab hbc
    simp only [candleLe, decide_eq_true_eq] at *
    exact le_trans hbc hab
  have htot : ∀ a b : CandleRow,
      candleLe .desc a b = true ∨ candleLe .desc b a = true := by
    intro a b
    simp only [candleLe, decide_eq_true_eq]
    exact le_total b.timestamp a.timestamp
  have hsorted := sortLe_pairwise (candleLe .desc) htrans htot
    (table.filter (candleMatches o))
  simp only [getCandlesWithCursor, h, Option.getD_none]
  have hmain : ((sortLe (candleLe .desc) (table.filter (candleMatches o))).take
      (o.limit.getD 100 + 1)).Pairwise (fun a b => candleLe .desc a b = true) :=
    List.Pairwise.sublist (List.take_sublist _ _) hsorted
  split
  · exact List.Pairwise.imp
      (by intro a b hab; simpa [candleLe] using hab)
      (List.Pairwise.sublist (List.take_sublist _ _) hmain)
  · exact List.Pairwise.imp
      (by intro a b hab; simpa [candleLe] using hab) hmain

/-- C7 amended: the repository fetches `limit + 1` rows (`hasMore` holds iff
more than `limit` rows match); when `hasMore`, the page is the first `limit`
rows and `nextCursor` encodes the LAST RETURNED row's period-start (not the
dropped extra row's); when the caller supplied a cursor, `previousCursor`
encodes the first returned row's period-start; and with no explicit order
the page is sorted descending by period-start. -/
theorem getCandlesWithCursor_spec (table : List CandleRow) (o : OhlcvQueryOptions) :
    ((getCandlesWithCursor table o).hasMore = true ↔
      o.limit.getD 100 + 1 ≤ (table.filter (candleMatches o)).length) ∧
    ((getCandlesWithCursor table o).hasMore = true →
      (getCandlesWithCursor table o).candles =
        (sortLe (candleLe (o.orderBy.getD .desc)) (table.filter (candleMatches o))).take
          (o.limit.getD 100) ∧
      (getCandlesWithCursor table o).nextCursor =
        ((getCandlesWithCursor table o).candles.getLast?).map
          (fun lc => encodeCursor lc.timestamp)) ∧
    (o.cursor.isSome = true →
      (getCandlesWithCursor table o).previousCursor =
        ((getCandlesWithCursor table o).candles.head?).map
          (fun fc => encodeCursor fc.timestamp)) ∧
    (o.orderBy = none →
      (getCandlesWithCursor table o).candles.Pairwise
        (fun a b => b.timestamp ≤ a.timestamp)) :=
  ⟨gcwc_hasMore_iff table o,
   fun h => ⟨gcwc_candles_of_hasMore table o h, gcwc_nextCursor_of_hasMore table o h⟩,
   gcwc_previousCursor table o,
   gcwc_desc_default table o⟩

/-- Options with a supplied cursor for the C7 witness. -/
def c7optsCur : OhlcvQueryOptions := ⟨.btcUsd, none, none, some 2, some ⟨5000⟩, none⟩

/-- Witness for the amended C7 at `c7tbl` with a supplied cursor. -/
theorem getCandlesWithCursor_spec_witness :
    (getCandlesWithCursor c7tbl c7optsCur).hasMore = true ∧
    (getCandlesWithCursor c7tbl c7optsCur).candles =
      (sortLe (candleLe (c7optsCur.orderBy.getD .desc))
        (c7tbl.filter (candleMatches c7optsCur))).take (c7optsCur.limit.getD 100) ∧
    (getCandlesWithCursor c7tbl c7optsCur).nextCursor =
      ((getCandlesWithCursor c7tbl c7optsCur).candles.getLast?).map
        (fun lc => encodeCursor lc.timestamp) ∧
    (getCandlesWithCursor c7tbl c7optsCur).previousCursor =
      ((getCandlesWithCursor c7tbl c7optsCur).candles.head?).map
        (fun fc => encodeCursor fc.timestamp) ∧
    (getCandlesWithCursor c7tbl c7optsCur).candles.Pairwise
      (fun a b => b.timestamp ≤ a.timestamp) := by
  have h := getCandlesWithCursor_spec c7tbl c7optsCur
  have hm : (getCandlesWithCursor c7tbl c7optsCur).hasMore = true := h.1.2 (by decide)
  exact ⟨hm, (h.2.1 hm).1, (h.2.1 hm).2, h.2.2.1 (by decide), h.2.2.2 rfl⟩

/-- Rate limit configuration (`RateLimitConfig`); defaults are
`windowMs = 60000`, `maxRequests = 100`. -/
structure RateLimitConfig where
  enabled : Bool
  windowMs : ℤ
  maxRequests : ℕ
deriving DecidableEq, Repr

/-- Result shape of `checkLimit` (`RateLimitResult`). -/
structure RateLimitResult where
  allowed : Bool
  remaining : ℤ
  resetTime : ℤ
  retryAfter : Option ℤ
deriving DecidableEq, Repr

/-- Survival predicate of `ZREMRANGEBYSCORE key 0 windowStart`: an entry
survives unless its score lies in `[0, windowStart]`. -/
def keepScore (windowStart : ℤ) (s : ℤ) : Bool :=
  !(decide (0 ≤ s) && decide (s ≤ windowStart))

/-- Embedding of `RateLimitService.checkLimit`.  The sorted-set state is the
list of scores of the client's entries (members are unique random strings, so
`ZCARD` is the list length).  Inside the `MULTI` the source FIRST removes the
entries older than the window, counts, and then ALWAYS adds the current
request — the `zadd` is queued before the count is inspected, so a denied
request is recorded too.  Returns the result and the state after the call. -/
def checkLimit (cfg : RateLimitConfig) (state : List ℤ) (now : ℤ) :
    RateLimitResult × List ℤ :=
  if !cfg.enabled then
    ({ allowed := true, remaining := (cfg.maxRequests : ℤ),
       resetTime := now + cfg.windowMs, retryAfter := none }, state)
  else
    let windowStart := now - cfg.windowMs
    let state1 := state.filter (keepScore windowStart)
    let currentCount := state1.length
    let state2 := state1 ++ [now]
    let remaining := max 0 ((cfg.maxRequests : ℤ) - currentCount - 1)
    let resetTime := now + cfg.windowMs
    if cfg.maxRequests ≤ currentCount then
      ({ allowed := false, remaining := 0, resetTime := resetTime,
         retryAfter := some cfg.windowMs }, state2)
    else
      ({ allowed := true, remaining := remaining, resetTime := resetTime,
         retryAfter := none }, state2)

/-- Sequential client requests: fold `checkLimit` over the request times,
threading the sorted-set state; returns the final state. -/
def runChecks (cfg : RateLimitConfig) (state : List ℤ) : List ℤ → List ℤ
  | [] => state
  | t :: ts => runChecks cfg (checkLimit cfg state t).2 ts

lemma keepScore_eq_true_iff (c s : ℤ) :
    keepScore c s = true ↔ ¬(0 ≤ s ∧ s ≤ c) := by
  simp only [keepScore, Bool.not_eq_true', Bool.and_eq_false_iff,
    decide_eq_false_iff_not, not_le, not_and_or]

lemma checkLimit_state_eq (cfg : RateLimitConfig) (he : cfg.enabled = true)
    (state : List ℤ) (now : ℤ) :
    (checkLimit cfg state now).2 =
      state.filter (keepScore (now - cfg.windowMs)) ++ [now] := by
  simp only [checkLimit, he, Bool.not_true, Bool.false_eq_true, if_false]
  split <;> rfl

lemma runChecks_no_evict (cfg : RateLimitConfig) (he : cfg.enabled = true)
    (ts : List ℤ) :
    ∀ s : List ℤ,
      (∀ x ∈ s ++ ts, ∀ u ∈ ts, ¬(0 ≤ x ∧ x ≤ u - cfg.windowMs)) →
      runChecks cfg s ts = s ++ ts := by
  induction ts with
  | nil => intro s _; simp [runChecks]
  | cons t ts ih =>
      intro s H
      rw [runChecks, checkLimit_state_eq cfg he]
      have hfilter : s.filter (keepScore (t - cfg.windowMs)) = s := by
        refine List.filter_eq_self.2 ?_
        intro x hx
        exact (keepScore_eq_true_iff _ _).2
          (H x (List.mem_append_left _ hx) t (List.mem_cons_self t ts))
      rw [hfilter]
      have H2 : ∀ x ∈ (s ++ [t]) ++ ts, ∀ u ∈ ts, ¬(0 ≤ x ∧ x ≤ u - cfg.windowMs) := by
        intro x hx u hu
        have hx2 : x ∈ s ++ t :: ts := by
          simp only [List.append_assoc, List.singleton_append] at hx
          exact hx
        exact H x hx2 u (List.mem_cons_of_mem t hu)
      rw [ih (s ++ [t]) H2, List.append_assoc, List.singleton_append]

/-- C8 counterexample: with `max = 1, window = 60000`, a prior request at
`t = 100000` and a second request at `t = 100001`: the second request is
denied, yet it IS added to the window — the sorted set afterwards holds both
scores, refuting "a denied request is not recorded". -/
theorem checkLimit_denied_still_recorded :
    (checkLimit ⟨true, 60000, 1⟩ [100000] 100001).1.allowed = false ∧
    (checkLimit ⟨true, 60000, 1⟩ [100000] 100001).2 = [100000, 100001] := by decide

/-- C8 amended: with the limiter enabled, every check first evicts the
entries with score in `[0, now − window]` and then ALWAYS records the current
request (denied ones included); when the evicted window already holds at
least `max` entries the result is exactly
`{allowed := false, remaining := 0, resetTime := now + window,
retryAfter := window}` (so `retryAfter` never exceeds the window); and after
`max` requests inside one window, the next request in that window — the
(M+1)-th — is denied with `retryAfter = window`. -/
theorem checkLimit_spec (cfg : RateLimitConfig) (he : cfg.enabled = true) :
    (∀ (state : List ℤ) (now : ℤ),
      (checkLimit cfg state now).2 =
        state.filter (keepScore (now - cfg.windowMs)) ++ [now] ∧
      (cfg.maxRequests ≤ (state.filter (keepScore (now - cfg.windowMs))).length →
        (checkLimit cfg state now).1 =
          ⟨false, 0, now + cfg.windowMs, some cfg.windowMs⟩) ∧
      ((state.filter (keepScore (now - cfg.windowMs))).length < cfg.maxRequests →
        (checkLimit cfg state now).1.allowed = true) ∧
      (∀ ra, (checkLimit cfg state now).1.retryAfter = some ra → ra ≤ cfg.windowMs)) ∧
    (∀ (ts : List ℤ) (t : ℤ),
      ts.length = cfg.maxRequests →
      (∀ x ∈ ts ++ [t], 0 ≤ x) →
      (∀ x ∈ ts ++ [t], ∀ u ∈ ts ++ [t], u - x < cfg.windowMs) →
      (checkLimit cfg (runChecks cfg [] ts) t).1.allowed = false ∧
      (checkLimit cfg (runChecks cfg [] ts) t).1.retryAfter = some cfg.windowMs) := by
  have hbase : ∀ (state : List ℤ) (now : ℤ),
      (checkLimit cfg state now).2 =
        state.filter (keepScore (now - cfg.windowMs)) ++ [now] ∧
      (cfg.maxRequests ≤ (state.filter (keepScore (now - cfg.windowMs))).length →
        (checkLimit cfg state now).1 =
          ⟨false, 0, now + cfg.windowMs, some cfg.windowMs⟩) ∧
      ((state.filter (keepScore (now - cfg.windowMs))).length < cfg.maxRequests →
        (checkLimit cfg state now).1.allowed = true) ∧
      (∀ ra, (checkLimit cfg state now).1.retryAfter = some ra → ra ≤ cfg.windowMs) := by
    intro state now
    refine ⟨checkLimit_state_eq cfg he state now, ?_, ?_, ?_⟩
    · intro hge
      simp only [checkLimit, he, Bool.not_true, Bool.false_eq_true, if_false]
      rw [if_pos hge]
    · intro hlt
      simp only [checkLimit, he, Bool.not_true, Bool.false_eq_true, if_false]
      rw [if_neg (not_le.2 hlt)]
    · intro ra hra
      simp only [checkLimit, he, Bool.not_true, Bool.false_eq_true, if_false] at hra
      rcases le_or_lt cfg.maxRequests
          ((state.filter (keepScore (now - cfg.windowMs))).length) with hge | hlt
      · rw [if_pos hge] at hra
        simp only [Option.some.injEq] at hra
        exact le_of_eq hra.symm
      · rw [if_neg (not_le.2 hlt)] at hra
        simp at hra
  refine ⟨hbase, ?_⟩
  intro ts t hlen hpos hspan
  have hnoevict : ∀ x ∈ ([] : List ℤ) ++ ts, ∀ u ∈ ts, ¬(0 ≤ x ∧ x ≤ u - cfg.windowMs) := by
    intro x hx u hu
    rintro ⟨_, hle⟩
    have hx2 : x ∈ ts ++ [t] := List.mem_append_left _ (by simpa using hx)
    have hu2 : u ∈ ts ++ [t] := List.mem_append_left _ hu
    have := hspan x hx2 u hu2
    omega
  have hstate : runChecks cfg [] ts = ts := by
    simpa using runChecks_no_evict cfg he ts [] hnoevict
  have hkeep : ts.filter (keepScore (t - cfg.windowMs)) = ts := by
    refine List.filter_eq_self.2 ?_
    intro x hx
    refine (keepScore_eq_true_iff _ _).2 ?_
    rintro ⟨_, hle⟩
    have hx2 : x ∈ ts ++ [t] := List.mem_append_left _ hx
    have ht2 : t ∈ ts ++ [t] := List.mem_append_right _ (List.mem_singleton_self t)
    have := hspan x hx2 t ht2
    omega
  have hge : cfg.maxRequests ≤ ((runChecks cfg [] ts).filter
      (keepScore (t - cfg.windowMs))).length := by
    rw [hstate, hkeep, hlen]
  have hdeny := (hbase (runChecks cfg [] ts) t).2.1 hge
  rw [hdeny]
  exact ⟨rfl, rfl⟩

/-- Witness for the amended C8: `max = 2, window = 60000`; a lone request is
recorded, and the third request within the window is denied. -/
theorem checkLimit_spec_witness :
    (checkLimit ⟨true, 60000, 2⟩ [100] 200).2 =
      [100].filter (keepScore (200 - 60000)) ++ [200] ∧
    (checkLimit ⟨true, 60000, 2⟩ (runChecks ⟨true, 60000, 2⟩ [] [100000, 100001]) 100002).1.allowed
      = false := by
  have h := checkLimit_spec ⟨true, 60000, 2⟩ rfl
  exact ⟨(h.1 [100] 200).1,
    (h.2 [100000, 100001] 100002 rfl (by decide) (by decide)).1⟩

/-- Mutable fields of `StreamAggregatorProcess` that the tick loop and the
health check read and write. -/
structure AggregatorState where
  isRunning : Bool
  consecutiveErrors : ℕ
  lastSuccessfulAggregation : ℤ
  aggregationCount : ℕ
deriving DecidableEq, Repr

/-- Outcome of one pair inside a tick of `aggregate`: the pair emitted a
price (`calculateVwap` non-null and the writes succeeded), was skipped
(empty window), or threw (caught by the per-pair `try/catch`). -/
inductive PairOutcome where
  | emitted
  | skipped
  | failed
deriving DecidableEq, Repr

/-- Embedding of `StreamAggregatorProcess.aggregate`: per-pair errors are
swallowed, `aggregationCount` grows by the number of emitting pairs, and
`lastSuccessfulAggregation = Date.now()` is assigned UNCONDITIONALLY at the
end of the loop — also when every pair failed. -/
def aggregate (s : AggregatorState) (outcomes : List PairOutcome) (now : ℤ) :
    AggregatorState :=
  { s with
    aggregationCount :=
      s.aggregationCount + (outcomes.filter (fun o => decide (o = .emitted))).length,
    lastSuccessfulAggregation := now }

/-- Status of a single health check entry. -/
inductive CheckStatus where
  | pass
  | warn
  | fail
deriving DecidableEq, Repr

/-- Aggregated health level. -/
inductive HealthLevel where
  | healthy
  | degraded
  | unhealthy
deriving DecidableEq, Repr

/-- Embedding of `StreamAggregatorProcess.checkHealth`: `running` fails when
stopped; `aggregation_frequency` warns when the last (tick-loop) aggregation
is 3×interval or older; `error_rate` warns from 5 and fails from 10
consecutive errors; any failure ⇒ unhealthy, else any warning ⇒ degraded. -/
def checkHealth (s : AggregatorState) (now : ℤ) : HealthLevel :=
  let runningStatus := if s.isRunning then CheckStatus.pass else CheckStatus.fail
  let freqStatus :=
    if now - s.lastSuccessfulAggregation < AGGREGATION_INTERVAL * 3 then CheckStatus.pass
    else CheckStatus.warn
  let errorStatus :=
    if s.consecutiveErrors < 5 then CheckStatus.pass
    else if s.consecutiveErrors < 10 then CheckStatus.warn
    else CheckStatus.fail
  let checks := [runningStatus, freqStatus, errorStatus]
  let hasFailure := checks.any (fun c => decide (c = .fail))
  let hasWarning := checks.any (fun c => decide (c = .warn))
  if hasFailure then .unhealthy else if hasWarning then .degraded else .healthy

/-- C9 counterexample: a tick in which EVERY per-pair aggregation failed
still sets `lastSuccessfulAggregation` to the tick time, so the subsequent
health check reports `healthy` — whereas without that overwrite (no
successful tick since time 0) it would report `degraded`, as the claim
requires for fully-failed ticks. -/
theorem checkHealth_masks_failed_tick :
    aggregate ⟨true, 0, 0, 0⟩ [.failed, .failed, .failed] 100000 =
      ⟨true, 0, 100000, 0⟩ ∧
    checkHealth (aggregate ⟨true, 0, 0, 0⟩ [.failed, .failed, .failed] 100000) 100000 =
      .healthy ∧
    checkHealth ⟨true, 0, 0, 0⟩ 100000 = .degraded := by decide

/-- C9 amended: the health check is `unhealthy` exactly when the aggregator
is stopped or has ≥ 10 consecutive errors, and `degraded` exactly when it is
running with < 10 consecutive errors and either no tick-loop completion lies
within 3× the tick interval or there are ≥ 5 consecutive errors; a tick in
which every per-pair aggregation failed still counts — `aggregate`
unconditionally stamps `lastSuccessfulAggregation` with the tick time. -/
theorem checkHealth_spec (s : AggregatorState) (now : ℤ) :
    (checkHealth s now = .unhealthy ↔
      (s.isRunning = false ∨ 10 ≤ s.consecutiveErrors)) ∧
    (checkHealth s now = .degraded ↔
      (s.isRunning = true ∧ s.consecutiveErrors < 10 ∧
        (AGGREGATION_INTERVAL * 3 ≤ now - s.lastSuccessfulAggregation ∨
          5 ≤ s.consecutiveErrors))) ∧
    (∀ (outcomes : List PairOutcome) (t : ℤ),
      (aggregate s outcomes t).lastSuccessfulAggregation = t) := by
  have hA : AGGREGATION_INTERVAL = (10000 : ℤ) := rfl
  refine ⟨?_, ?_, fun outcomes t => rfl⟩ <;>
  · cases hr : s.isRunning <;>
      by_cases hfreq : now - s.lastSuccessfulAggregation < 30000 <;>
      by_cases he5 : s.consecutiveErrors < 5 <;>
      by_cases he10 : s.consecutiveErrors < 10 <;>
      simp [checkHealth, hr, hfreq, he5, he10, hA] <;>
      omega

/-- Outcome of the guarded Redis read `this.redis.get(CACHE_KEY)` inside
`getRate`: the read threw (caught and logged), the key was absent or empty
(falsy), or a string was present whose `parseFloat` gave `none` (`NaN`) or a
rational. -/
inductive RedisReadResult where
  | err
  | missing
  | value (parsed : Option ℚ)
deriving DecidableEq, Repr

/-- Collaborator snapshot that `CbrRateService.getRate` consults at one call:
the Redis read of `rate:usd-rub`, the in-memory `this.cachedRate`, and what
a fresh `fetchRateWithRetry` would yield (`some r` sets `cachedRate := r`;
`none` means all attempts failed). -/
structure CbrEnv where
  redisCached : RedisReadResult
  cachedRate : ℚ
  fetchOutcome : Option ℚ
deriving DecidableEq, Repr

/-- Hard-coded fallback rate (`FALLBACK_RATE = 90.0`). -/
def FALLBACK_RATE : ℚ := 90

/-- Tail of `getRate` after the Redis-cache block: return the in-memory rate
when positive, else re-fetch and return the (positive) fetched rate, else the
fallback. -/
def getRateTail (env : CbrEnv) : ℚ :=
  if 0 < env.cachedRate then env.cachedRate
  else
    match env.fetchOutcome with
    | some r => if 0 < r then r else FALLBACK_RATE
    | none => FALLBACK_RATE

/-- Embedding of `CbrRateService.getRate`: the Redis-cached value is returned
when it parses to a positive number (read errors are caught and logged), else
the in-memory cascade `getRateTail` decides. -/
def getRate (env : CbrEnv) : ℚ :=
  match env.redisCached with
  | .value (some r) => if 0 < r then r else getRateTail env
  | _ => getRateTail env

lemma getRateTail_pos (env : CbrEnv) : 0 < getRateTail env := by
  unfold getRateTail
  split_ifs with h
  · exact h
  · split
    · split_ifs with h2
      · exact h2
      · norm_num [FALLBACK_RATE]
    · norm_num [FALLBACK_RATE]

lemma getRate_eq_tail (env : CbrEnv)
    (h : ∀ r, env.redisCached = .value (some r) → ¬(0 < r)) :
    getRate env = getRateTail env := by
  unfold getRate
  cases henv : env.redisCached with
  | err => rfl
  | missing => rfl
  | value parsed =>
      cases parsed with
      | none => rfl
      | some r => exact if_neg (h r henv)

/-- C10: `getRate` is total and always strictly positive: it returns the
positive Redis-cached rate when one parses, else the positive in-memory rate,
else a freshly fetched positive rate, and otherwise the hard-coded fallback
90 — so the RUB-derivation guard `rate > 0` holds on every emission. -/
theorem getRate_spec (env : CbrEnv) :
    0 < getRate env ∧
    (∀ r, env.redisCached = .value (some r) → 0 < r → getRate env = r) ∧
    ((∀ r, env.redisCached = .value (some r) → ¬(0 < r)) → 0 < env.cachedRate →
      getRate env = env.cachedRate) ∧
    ((∀ r, env.redisCached = .value (some r) → ¬(0 < r)) → env.cachedRate ≤ 0 →
      ∀ r, env.fetchOutcome = some r → 0 < r → getRate env = r) ∧
    ((∀ r, env.redisCached = .value (some r) → ¬(0 < r)) → env.cachedRate ≤ 0 →
      (∀ r, env.fetchOutcome = some r → ¬(0 < r)) →
      getRate env = FALLBACK_RATE) := by
  refine ⟨?_, ?_, ?_, ?_, ?_⟩
  · unfold getRate
    cases henv : env.redisCached with
    | err => exact getRateTail_pos env
    | missing => exact getRateTail_pos env
    | value parsed =>
        cases parsed with
        | none => exact getRateTail_pos env
        | some r =>
            show 0 < if 0 < r then r else getRateTail env
            split_ifs with h
            · exact h
            · exact getRateTail_pos env
  · intro r hredis hpos
    unfold getRate
    rw [hredis]
    exact if_pos hpos
  · intro hredis hmem
    rw [getRate_eq_tail env hredis]
    unfold getRateTail
    exact if_pos hmem
  · intro hredis hmem r hf hpos
    rw [getRate_eq_tail env hredis]
    unfold getRateTail
    rw [if_neg (not_lt.2 hmem)]
    simp only [hf]
    exact if_pos hpos
  · intro hredis hmem hfetch
    rw [getRate_eq_tail env hredis]
    unfold getRateTail
    rw [if_neg (not_lt.2 hmem)]
    cases hf : env.fetchOutcome with
    | none => rfl
    | some r => exact if_neg (hfetch r hf)

/-- Witness for C10: with a Redis read error, no prior in-memory rate, and a
fetch that fails every attempt, `getRate` still returns the positive fallback
90. -/
theorem getRate_spec_witness :
    0 < getRate ⟨.err, 0, none⟩ ∧ getRate ⟨.err, 0, none⟩ = FALLBACK_RATE :=
  ⟨(getRate_spec ⟨.err, 0, none⟩).1,
   (getRate_spec ⟨.err, 0, none⟩).2.2.2.2
     (fun r h => by simp at h) (le_refl 0) (fun r h => by simp at h)⟩

end Priceverse
